import Mathlib

/-!
Verification of the expense-tracker component in `src/src/App.js`.

The component keeps an ordered collection of expense records in React state,
persists it to the localStorage key "expenses" as JSON, and derives a total,
a line-chart series and a per-category pie-chart series from it.

Shallow embedding notes:
* JS numbers are modelled as `Int` (exact arithmetic; the amounts are
  user-entered integers in the UI examples and nothing in the claims depends
  on fractional values).
* The `amount` input is an HTML `input type="number"`; per the HTML spec its
  value is the empty string whenever the typed content is not a valid number,
  and a numeric string otherwise.  JS string truthiness makes only the empty
  string falsy.  The field is therefore modelled as `Option Int`: `none` is
  the empty (hence also the non-numeric) input, `some a` a held numeric
  value.  The guard `if (!title || !amount) return` becomes the test
  `title = "" or amount = none`, and `Number(amount)` becomes `a`.
* `JSON.stringify` of the collection is modelled by the executable encoder
  `stringify` below, which produces the exact JSON text the browser produces
  for the record shape at hand (object keys in insertion order, strings with
  quote and backslash escaping, base-10 numerals).  `JSON.parse` is modelled
  by the executable decoder `parse`; `none` models a thrown `SyntaxError`.
  Note that `App.js` does NOT wrap `JSON.parse` in try/catch.
* `Date.now()` and `new Date().toLocaleDateString()` are inputs of the
  event handler and appear as explicit `now`/`today` parameters.
* `window.confirm` is a boolean input of the clear-all handler.
-/

namespace ExpenseApp

/-- An expense record, as built by `addExpense` in `App.js`:
`{ id: Date.now(), title, amount: Number(amount), category, date }`. -/
structure Expense where
  id : Nat
  title : String
  amount : Int
  category : String
  date : String
deriving DecidableEq

/-- The component state that the expense operations touch: the `expenses`
collection and the three controlled inputs `title`, `amount`, `category`. -/
structure AppState where
  expenses : List Expense
  title : String
  amount : Option Int
  category : String
deriving DecidableEq

/-- The fixed category list of `App.js`:
`const categories = ["Food", "Travel", "Shopping", "Rent", "Other"]`. -/
def categories : List String := ["Food", "Travel", "Shopping", "Rent", "Other"]

/-- The localStorage slot under the key "expenses": `none` when the key is
absent, `some s` when the stored string is `s`. -/
structure Store where
  slot : Option String
deriving DecidableEq

/-- Model of `addExpense` in `App.js`:
`if (!title || !amount) return;` then append
`{ id: Date.now(), title, amount: Number(amount), category, date }` and clear
the `title` and `amount` inputs (the category selector is left unchanged). -/
def addExpense (s : AppState) (now : Nat) (today : String) : AppState :=
  if s.title = "" then s
  else
    match s.amount with
    | none => s
    | some a =>
      { s with
        expenses := s.expenses ++
          [{ id := now, title := s.title, amount := a,
             category := s.category, date := today }],
        title := "", amount := none }

/-- Model of `removeExpense` in `App.js`:
`setExpenses(expenses.filter((e) => e.id !== id))`. -/
def removeExpense (l : List Expense) (i : Nat) : List Expense :=
  l.filter fun e => e.id != i

/-- Model of `clearAll` in `App.js`: `window.confirm(...)` is the boolean
argument; on `true` the collection becomes `[]`, on `false` nothing happens. -/
def clearAll (l : List Expense) (confirmed : Bool) : List Expense :=
  if confirmed then [] else l

/-- Model of `total` in `App.js`:
`expenses.reduce((sum, e) => sum + e.amount, 0)`. -/
def total (l : List Expense) : Int :=
  l.foldl (fun sum e => sum + e.amount) 0

/-- The line-chart payload of `lineData` in `App.js`: the chart labels are
`expenses.map((e) => e.date)` and the dataset is
`expenses.map((e) => e.amount)` (styling fields omitted). -/
structure LineData where
  labels : List String
  dataset : List Int
deriving DecidableEq

/-- Model of `lineData` in `App.js`. -/
def lineData (l : List Expense) : LineData :=
  { labels := l.map fun e => e.date,
    dataset := l.map fun e => e.amount }

/-- One slice value of `pieData` in `App.js`:
`expenses.filter((e) => e.category === cat).reduce((sum, e) => sum + e.amount, 0)`. -/
def catSum (l : List Expense) (cat : String) : Int :=
  (l.filter fun e => e.category == cat).foldl (fun sum e => sum + e.amount) 0

/-- Model of the dataset of `pieData` in `App.js`:
`categories.map((cat) => ...)`, one value per fixed category. -/
def pieData (l : List Expense) : List Int :=
  categories.map fun cat => catSum l cat

/-! JSON text model.  Special characters are named after their code points so
that the encoder and decoder can be written without escape sequences. -/

/-- The double-quote character. -/
def chQuote : Char := Char.ofNat 34
/-- The backslash character. -/
def chBackslash : Char := Char.ofNat 92
/-- The opening-brace character. -/
def chLBrace : Char := Char.ofNat 123
/-- The closing-brace character. -/
def chRBrace : Char := Char.ofNat 125
/-- The opening-bracket character. -/
def chLBrack : Char := '['
/-- The closing-bracket character. -/
def chRBrack : Char := ']'
/-- The comma character. -/
def chComma : Char := ','
/-- The colon character. -/
def chColon : Char := ':'
/-- The minus character. -/
def chMinus : Char := '-'

/-- JSON escaping of one string character, as `JSON.stringify` performs it on
the characters that occur in this data: quote and backslash are escaped with
a backslash, every other character is passed through. -/
def escChar (c : Char) : List Char :=
  if c = chQuote ∨ c = chBackslash then [chBackslash, c] else [c]

/-- The escaped body of a JSON string literal. -/
def encStrBody : List Char → List Char
  | [] => []
  | c :: t => escChar c ++ encStrBody t

/-- A JSON string literal: quote, escaped body, quote. -/
def encStrChars (s : String) : List Char :=
  chQuote :: (encStrBody s.data ++ [chQuote])

/-- A JSON object key followed by a colon, e.g. the characters of
`"id":` for `keyFor "id"`. -/
def keyFor (name : String) : List Char :=
  chQuote :: (name.data ++ [chQuote, chColon])

/-- The base-10 numeral of a natural number (what `JSON.stringify` prints for
a non-negative integral JS number). -/
def natChars (n : Nat) : List Char :=
  if n = 0 then [Char.ofNat 48]
  else ((Nat.digits 10 n).map fun d => Char.ofNat (48 + d)).reverse

/-- The base-10 numeral of an integer, with a leading minus when negative. -/
def encInt (a : Int) : List Char :=
  if a < 0 then chMinus :: natChars a.natAbs else natChars a.toNat

/-- The JSON object text for one expense record, with the keys in the
insertion order of the object literal in `addExpense`. -/
def encExpense (e : Expense) : List Char :=
  chLBrace ::
    (keyFor "id" ++ natChars e.id ++ [chComma] ++
     keyFor "title" ++ encStrChars e.title ++ [chComma] ++
     keyFor "amount" ++ encInt e.amount ++ [chComma] ++
     keyFor "category" ++ encStrChars e.category ++ [chComma] ++
     keyFor "date" ++ encStrChars e.date ++ [chRBrace])

/-- The comma-separated JSON texts of a list of records. -/
def encItems : List Expense → List Char
  | [] => []
  | [e] => encExpense e
  | e :: t => encExpense e ++ (chComma :: encItems t)

/-- The characters of `JSON.stringify(expenses)`: a JSON array. -/
def stringifyChars (l : List Expense) : List Char :=
  chLBrack :: (encItems l ++ [chRBrack])

/-- Model of `JSON.stringify(expenses)` in the persistence effect of
`App.js`. -/
def stringify (l : List Expense) : String :=
  String.mk (stringifyChars l)

/-- Decision procedure for a base-10 digit character. -/
def isDigitChar (c : Char) : Bool :=
  48 ≤ c.toNat && c.toNat ≤ 57

/-- The numeric value of a digit character. -/
def digitVal (c : Char) : Nat := c.toNat - 48

/-- Parse a base-10 numeral: take the leading digits and evaluate them
(most significant first), failing when there is no leading digit. -/
def parseNat (cs : List Char) : Option (Nat × List Char) :=
  let ds := cs.takeWhile isDigitChar
  if ds.isEmpty then none
  else some (Nat.ofDigits 10 ((ds.map digitVal).reverse), cs.dropWhile isDigitChar)

/-- Parse an optionally minus-signed base-10 numeral. -/
def parseInt (cs : List Char) : Option (Int × List Char) :=
  match cs with
  | [] => none
  | c :: rest =>
    if c = chMinus then
      match parseNat rest with
      | some (n, r) => some (-(n : Int), r)
      | none => none
    else
      match parseNat (c :: rest) with
      | some (n, r) => some ((n : Int), r)
      | none => none

/-- Parse the body of a JSON string literal up to its closing quote, undoing
the escaping of `escChar`. -/
def parseStrBody : List Char → Option (List Char × List Char)
  | [] => none
  | c :: rest =>
    if c = chQuote then some ([], rest)
    else if c = chBackslash then
      match rest with
      | [] => none
      | e :: rest2 =>
        if e = chQuote ∨ e = chBackslash then
          match parseStrBody rest2 with
          | some (b, r) => some (e :: b, r)
          | none => none
        else none
    else
      match parseStrBody rest with
      | some (b, r) => some (c :: b, r)
      | none => none

/-- Parse a JSON string literal. -/
def parseStr (cs : List Char) : Option (String × List Char) :=
  match cs with
  | [] => none
  | c :: rest =>
    if c = chQuote then
      match parseStrBody rest with
      | some (b, r) => some (String.mk b, r)
      | none => none
    else none

/-- Expect one literal character. -/
def expectChar (c : Char) : List Char → Option (List Char)
  | [] => none
  | d :: rest => if d = c then some rest else none

/-- Expect a literal character sequence. -/
def expectChars : List Char → List Char → Option (List Char)
  | [], cs => some cs
  | _ :: _, [] => none
  | p :: ps, c :: cs => if c = p then expectChars ps cs else none

/-- Parse one expense object of the shape `stringify` emits. -/
def parseExpense (cs : List Char) : Option (Expense × List Char) :=
  match expectChar chLBrace cs with
  | none => none
  | some r0 =>
  match expectChars (keyFor "id") r0 with
  | none => none
  | some r1 =>
  match parseNat r1 with
  | none => none
  | some (idv, s1) =>
  match expectChar chComma s1 with
  | none => none
  | some r2 =>
  match expectChars (keyFor "title") r2 with
  | none => none
  | some r3 =>
  match parseStr r3 with
  | none => none
  | some (tv, s2) =>
  match expectChar chComma s2 with
  | none => none
  | some r4 =>
  match expectChars (keyFor "amount") r4 with
  | none => none
  | some r5 =>
  match parseInt r5 with
  | none => none
  | some (av, s3) =>
  match expectChar chComma s3 with
  | none => none
  | some r6 =>
  match expectChars (keyFor "category") r6 with
  | none => none
  | some r7 =>
  match parseStr r7 with
  | none => none
  | some (cv, s4) =>
  match expectChar chComma s4 with
  | none => none
  | some r8 =>
  match expectChars (keyFor "date") r8 with
  | none => none
  | some r9 =>
  match parseStr r9 with
  | none => none
  | some (dv, s5) =>
  match expectChar chRBrace s5 with
  | none => none
  | some r10 =>
    some ({ id := idv, title := tv, amount := av,
            category := cv, date := dv }, r10)

/-- Parse a non-empty comma-separated run of expense objects terminated by
the closing bracket of the array.  The fuel argument only bounds the
recursion; `parseTop` supplies more fuel than any input can consume. -/
def parseItems : Nat → List Char → Option (List Expense × List Char)
  | 0, _ => none
  | fuel + 1, cs =>
    match parseExpense cs with
    | none => none
    | some (e, rest) =>
      match rest with
      | [] => none
      | c :: rest2 =>
        if c = chComma then
          match parseItems fuel rest2 with
          | some (t, r) => some (e :: t, r)
          | none => none
        else if c = chRBrack then some ([e], rest2)
        else none

/-- Parse a whole persisted blob: a JSON array of expense objects with
nothing following it.  A `none` result models `JSON.parse` throwing (or the
blob not being the serialization of an expense collection). -/
def parseTop (cs : List Char) : Option (List Expense) :=
  match cs with
  | [] => none
  | c :: rest =>
    if c = chLBrack then
      if rest = [chRBrack] then some []
      else
        match parseItems rest.length rest with
        | some (l, r) => if r = [] then some l else none
        | none => none
    else none

/-- Model of `JSON.parse(saved)` at the type this component stores:
`none` models a thrown `SyntaxError`. -/
def parse (s : String) : Option (List Expense) :=
  parseTop s.data

/-- Model of the `useState` initializer of `expenses` in `App.js`:
`const saved = localStorage.getItem("expenses"); return saved ? JSON.parse(saved) : [];`
An absent key (`none`) and the falsy empty string give `[]`; otherwise
`JSON.parse` runs, and since the initializer has no try/catch, a parse
failure propagates as a thrown exception, modelled by `Except.error ()`. -/
def loadInit (slot : Option String) : Except Unit (List Expense) :=
  match slot with
  | none => Except.ok []
  | some saved =>
    if saved = "" then Except.ok []
    else
      match parse saved with
      | some l => Except.ok l
      | none => Except.error ()

/-- Model of the persistence effect in `App.js`:
`useEffect(() => localStorage.setItem("expenses", JSON.stringify(expenses)), [expenses])`. -/
def persistEffect (l : List Expense) (st : Store) : Store :=
  { st with slot := some (stringify l) }

/-- The clear-all event handler together with the persistence effect that
follows it.  The effect has `[expenses]` as its dependency list, so it runs
(and writes the store) exactly when `setExpenses` was called, i.e. exactly on
confirmation; the boolean records whether a write happened. -/
def clearAllStep (l : List Expense) (st : Store) (confirmed : Bool) :
    List Expense × Store × Bool :=
  if confirmed then (clearAll l confirmed, persistEffect (clearAll l confirmed) st, true)
  else (clearAll l confirmed, st, false)

/-- One user-initiated add interaction: the values typed into the three
inputs plus the clock readings at the moment of the click.  The amount is a
held numeric value, i.e. a call that passes the validity guard has
`some c.amount` in the amount field. -/
structure AddCall where
  title : String
  amount : Int
  category : String
  now : Nat
  today : String
deriving DecidableEq

/-- Fill the input fields with the values of one add interaction and run the
`addExpense` handler. -/
def applyAdd (st : AppState) (c : AddCall) : AppState :=
  addExpense { st with title := c.title, amount := some c.amount,
                       category := c.category } c.now c.today

/-- Run a sequence of add interactions. -/
def runAdds (s : AppState) (calls : List AddCall) : AppState :=
  calls.foldl applyAdd s

/-- The collections reachable through the operations of the component,
starting from the empty collection: `addExpense` with a category offered by
the selector (the select element only offers the five fixed categories),
`removeExpense`, `clearAll`, and a reload of the persisted serialization. -/
inductive Reachable : List Expense → Prop
  | init : Reachable []
  | add (l : List Expense) (t : String) (a : Int) (c : String)
      (now : Nat) (today : String) :
      Reachable l → c ∈ categories →
      Reachable ((addExpense ⟨l, t, some a, c⟩ now today).expenses)
  | remove (l : List Expense) (i : Nat) :
      Reachable l → Reachable (removeExpense l i)
  | clear (l : List Expense) (b : Bool) :
      Reachable l → Reachable (clearAll l b)
  | reload (l l2 : List Expense) :
      Reachable l → parse (stringify l) = some l2 → Reachable l2

/-- Sample record used by witnesses. -/
def expA : Expense := ⟨1, "Coffee", 150, "Food", "d1"⟩

/-- Second sample record used by witnesses. -/
def expB : Expense := ⟨2, "Bus", 50, "Travel", "d2"⟩

/-- Sample collection used by witnesses. -/
def sampleList : List Expense := [expA, expB]

/-! Helper lemmas for the decoder-inverts-encoder proof. -/

theorem takeWhile_append_all {p : Char → Bool} (l r : List Char)
    (hl : ∀ c ∈ l, p c = true) (hr : ∀ c, r.head? = some c → p c = false) :
    (l ++ r).takeWhile p = l ∧ (l ++ r).dropWhile p = r := by
  induction l with
  | nil =>
    cases r with
    | nil => simp
    | cons c t =>
      have hc := hr c rfl
      simp [List.takeWhile_cons, List.dropWhile_cons, hc]
  | cons a l ih =>
    have ha := hl a (List.mem_cons_self a l)
    have h2 := ih fun c hc => hl c (List.mem_cons_of_mem a hc)
    simp [List.takeWhile_cons, List.dropWhile_cons, ha, h2.1, h2.2]

theorem digitVal_ofNat (d : Nat) (hd : d < 10) :
    digitVal (Char.ofNat (48 + d)) = d := by
  interval_cases d <;> decide

theorem isDigitChar_ofNat (d : Nat) (hd : d < 10) :
    isDigitChar (Char.ofNat (48 + d)) = true := by
  interval_cases d <;> decide

theorem natChars_digits (n : Nat) : ∀ c ∈ natChars n, isDigitChar c = true := by
  intro c hc
  by_cases hn : n = 0
  · subst hn
    have h0 : natChars 0 = [Char.ofNat 48] := rfl
    rw [h0, List.mem_singleton] at hc
    subst hc
    decide
  · simp only [natChars, if_neg hn, List.mem_reverse, List.mem_map] at hc
    obtain ⟨d, hd, rfl⟩ := hc
    exact isDigitChar_ofNat d (Nat.digits_lt_base (by norm_num) hd)

theorem natChars_ne_nil (n : Nat) : natChars n ≠ [] := by
  by_cases hn : n = 0
  · subst hn; simp [natChars]
  · simp [natChars, hn, Nat.digits_ne_nil_iff_ne_zero]

theorem natChars_val (n : Nat) :
    Nat.ofDigits 10 (((natChars n).map digitVal).reverse) = n := by
  by_cases hn : n = 0
  · subst hn; simp [natChars, digitVal]
  · simp only [natChars, if_neg hn, List.map_reverse, List.reverse_reverse,
      List.map_map]
    have hmap : (Nat.digits 10 n).map (digitVal ∘ fun d => Char.ofNat (48 + d)) =
        (Nat.digits 10 n).map id := by
      apply List.map_congr_left
      intro d hd
      exact digitVal_ofNat d (Nat.digits_lt_base (by norm_num) hd)
    rw [hmap, List.map_id]
    exact Nat.ofDigits_digits 10 n

theorem parseNat_natChars (n : Nat) (r : List Char)
    (hr : ∀ c, r.head? = some c → isDigitChar c = false) :
    parseNat (natChars n ++ r) = some (n, r) := by
  have h := takeWhile_append_all (natChars n) r (natChars_digits n) hr
  have hne : (natChars n).isEmpty = false := by
    cases h : natChars n with
    | nil => exact absurd h (natChars_ne_nil n)
    | cons a t => simp [List.isEmpty]
  simp only [parseNat, h.1, h.2, hne, Bool.false_eq_true, if_false,
    natChars_val n]

theorem head_comma_not_digit (x : List Char) :
    ∀ c, (chComma :: x).head? = some c → isDigitChar c = false := by
  intro c hc
  rw [List.head?_cons] at hc
  injection hc with h
  subst h
  decide

theorem parseNat_natChars_comma (n : Nat) (x : List Char) :
    parseNat (natChars n ++ (chComma :: x)) = some (n, chComma :: x) :=
  parseNat_natChars n (chComma :: x) (head_comma_not_digit x)

theorem parseInt_encInt (a : Int) (r : List Char)
    (hr : ∀ c, r.head? = some c → isDigitChar c = false) :
    parseInt (encInt a ++ r) = some (a, r) := by
  by_cases ha : a < 0
  · have hval : -((a.natAbs : Nat) : Int) = a := by omega
    simp [encInt, ha, parseInt, parseNat_natChars a.natAbs r hr, hval]
    rw [abs_of_neg ha, neg_neg]
  · have hne := natChars_ne_nil a.toNat
    cases hnc : natChars a.toNat with
    | nil => exact absurd hnc hne
    | cons c t =>
      have hcdig : isDigitChar c = true :=
        natChars_digits a.toNat c (by rw [hnc]; exact List.mem_cons_self c t)
      have hcm : ¬(c = chMinus) := by
        intro h
        rw [h] at hcdig
        exact absurd hcdig (by decide)
      have hp := parseNat_natChars a.toNat r hr
      rw [hnc] at hp
      have hval : ((a.toNat : Nat) : Int) = a := by omega
      simp only [encInt, ha, if_false, hnc, List.cons_append, parseInt,
        if_neg hcm]
      rw [List.cons_append] at hp
      rw [hp]
      simp [hval]

theorem parseInt_encInt_comma (a : Int) (x : List Char) :
    parseInt (encInt a ++ (chComma :: x)) = some (a, chComma :: x) :=
  parseInt_encInt a (chComma :: x) (head_comma_not_digit x)

theorem parseStrBody_enc (s : List Char) (r : List Char) :
    parseStrBody (encStrBody s ++ (chQuote :: r)) = some (s, r) := by
  induction s with
  | nil =>
    simp only [encStrBody, List.nil_append]
    rw [parseStrBody.eq_def]
    simp
  | cons c t ih =>
    by_cases hc : c = chQuote ∨ c = chBackslash
    · have hbq : ¬(chBackslash = chQuote) := by decide
      simp only [encStrBody, escChar, List.append_assoc]
      rw [if_pos hc]
      simp only [List.cons_append, List.nil_append]
      rw [parseStrBody.eq_def]
      simp [hbq, hc, ih]
    · push_neg at hc
      simp only [encStrBody, escChar, List.append_assoc]
      rw [if_neg (not_or.mpr ⟨hc.1, hc.2⟩)]
      simp only [List.cons_append, List.nil_append]
      rw [parseStrBody.eq_def]
      simp [hc.1, hc.2, ih]

theorem parseStr_enc (s : String) (r : List Char) :
    parseStr (encStrChars s ++ r) = some (s, r) := by
  have h := parseStrBody_enc s.data r
  simp only [encStrChars, List.cons_append, List.append_assoc,
    List.singleton_append, List.nil_append, parseStr, eq_self_iff_true, if_true]
  rw [h]

theorem expectChar_cons (c : Char) (x : List Char) :
    expectChar c (c :: x) = some x := by
  simp [expectChar]

theorem expectChars_append (pat : List Char) (x : List Char) :
    expectChars pat (pat ++ x) = some x := by
  induction pat with
  | nil => rfl
  | cons p ps ih => simp [expectChars, ih]

theorem parseExpense_enc (e : Expense) (r : List Char) :
    parseExpense (encExpense e ++ r) = some (e, r) := by
  obtain ⟨i, t, a, c, d⟩ := e
  simp only [encExpense, parseExpense, List.cons_append, List.append_assoc,
    List.singleton_append, List.nil_append, expectChar_cons, expectChars_append,
    parseNat_natChars_comma, parseInt_encInt_comma, parseStr_enc]

theorem encItems_singleton (e : Expense) : encItems [e] = encExpense e := rfl

theorem encItems_cons2 (e e2 : Expense) (t : List Expense) :
    encItems (e :: e2 :: t) = encExpense e ++ (chComma :: encItems (e2 :: t)) := rfl

theorem encItems_length_ge (l : List Expense) :
    l.length ≤ (encItems l).length := by
  induction l with
  | nil => simp [encItems]
  | cons e t ih =>
    cases t with
    | nil => simp [encItems_singleton, encExpense]
    | cons e2 t2 =>
      rw [encItems_cons2]
      simp only [List.length_append, List.length_cons, encExpense] at *
      omega

theorem parseItems_enc (l : List Expense) :
    ∀ (r : List Char) (fuel : Nat), l ≠ [] → l.length ≤ fuel →
      parseItems fuel (encItems l ++ (chRBrack :: r)) = some (l, r) := by
  induction l with
  | nil => intro r fuel h _; exact absurd rfl h
  | cons e t ih =>
    intro r fuel _ hfuel
    cases fuel with
    | zero => simp at hfuel
    | succ f =>
      cases t with
      | nil =>
        have hcr : ¬(chRBrack = chComma) := by decide
        simp [encItems_singleton, parseItems, parseExpense_enc, hcr]
      | cons e2 t2 =>
        have hih := ih r f (by simp) (by simp at hfuel ⊢; omega)
        rw [encItems_cons2]
        simp only [List.append_assoc, List.cons_append, List.singleton_append]
        simp [parseItems, parseExpense_enc, hih]

theorem parseTop_stringify (l : List Expense) :
    parseTop (stringifyChars l) = some l := by
  cases l with
  | nil => rfl
  | cons e t =>
    have hge := encItems_length_ge (e :: t)
    have hne : encItems (e :: t) ++ [chRBrack] ≠ [chRBrack] := by
      intro h
      have hlen := congrArg List.length h
      simp only [List.length_append, List.length_cons, List.length_nil] at hlen
      simp only [List.length_cons] at hge
      omega
    have hmain := parseItems_enc (e :: t) [] ((encItems (e :: t)).length + 1)
      (by simp)
      (by simp only [List.length_cons] at hge ⊢; omega)
    simp [stringifyChars, parseTop, hne, hmain]

theorem parse_stringify (l : List Expense) : parse (stringify l) = some l := by
  simpa [parse, stringify] using parseTop_stringify l

theorem stringify_ne_empty (l : List Expense) : stringify l ≠ "" := by
  intro h
  have h2 : stringifyChars l = [] := congrArg String.data h
  simp [stringifyChars] at h2

theorem loadInit_stringify (l : List Expense) :
    loadInit (some (stringify l)) = Except.ok l := by
  simp [loadInit, stringify_ne_empty l, parse_stringify l]

/-! Helper lemmas about the derived views. -/

theorem foldl_add_amount (l : List Expense) (a0 : Int) :
    l.foldl (fun sum e => sum + e.amount) a0 = a0 + (l.map fun e => e.amount).sum := by
  induction l generalizing a0 with
  | nil => simp
  | cons e t ih => simp [List.foldl_cons, ih, List.sum_cons]; ring

theorem total_eq_sum (l : List Expense) :
    total l = (l.map fun e => e.amount).sum := by
  simpa [total] using foldl_add_amount l 0

theorem total_append (l1 l2 : List Expense) :
    total (l1 ++ l2) = total l1 + total l2 := by
  simp [total_eq_sum, List.map_append, List.sum_append]

theorem catSum_eq_sum (l : List Expense) (c : String) :
    catSum l c = ((l.filter fun e => e.category == c).map fun e => e.amount).sum := by
  simpa [catSum] using foldl_add_amount (l.filter fun e => e.category == c) 0

theorem catSum_cons (e : Expense) (t : List Expense) (c : String) :
    catSum (e :: t) c = (if e.category = c then e.amount else 0) + catSum t c := by
  by_cases h : e.category = c
  · simp [catSum_eq_sum, List.filter_cons, h]
  · simp [catSum_eq_sum, List.filter_cons, h]

theorem sum_map_add (L : List String) (f g : String → Int) :
    (L.map fun c => f c + g c).sum = (L.map f).sum + (L.map g).sum := by
  induction L with
  | nil => simp
  | cons c t ih => simp [ih]; ring

theorem sum_zero_of_notmem (t : List String) (x : String) (a : Int) (hx : x ∉ t) :
    (t.map fun c => if x = c then a else 0).sum = 0 := by
  induction t with
  | nil => simp
  | cons c u ih =>
    have h1 : ¬(x = c) := fun h => hx (h ▸ List.mem_cons_self c u)
    have h2 : x ∉ u := fun h => hx (List.mem_cons_of_mem c h)
    simp [h1, ih h2]

theorem sum_single_hit (L : List String) (x : String) (a : Int)
    (hx : x ∈ L) (hnd : L.Nodup) :
    (L.map fun c => if x = c then a else 0).sum = a := by
  induction L with
  | nil => cases hx
  | cons c t ih =>
    rcases List.mem_cons.mp hx with h | h
    · subst h
      have hnotin : x ∉ t := (List.nodup_cons.mp hnd).1
      simp [sum_zero_of_notmem t x a hnotin]
    · have hxc : ¬(x = c) := fun hh => (List.nodup_cons.mp hnd).1 (hh ▸ h)
      simp [hxc, ih h (List.nodup_cons.mp hnd).2]

theorem pie_sum_of_mem (l : List Expense)
    (h : ∀ e ∈ l, e.category ∈ categories) :
    (pieData l).sum = total l := by
  induction l with
  | nil => decide
  | cons e t ih =>
    have hcat : e.category ∈ categories := h e (List.mem_cons_self e t)
    have ih2 := ih fun x hx => h x (List.mem_cons_of_mem e hx)
    have hnd : categories.Nodup := by decide
    calc (pieData (e :: t)).sum
        = (categories.map fun c => (if e.category = c then e.amount else 0) + catSum t c).sum := by
          simp only [pieData]
          congr 1
          apply List.map_congr_left
          intro c _
          exact catSum_cons e t c
      _ = (categories.map fun c => if e.category = c then e.amount else 0).sum + (pieData t).sum := by
          rw [sum_map_add categories (fun c => if e.category = c then e.amount else 0) (catSum t)]
          rfl
      _ = e.amount + total t := by
          rw [sum_single_hit categories e.category e.amount hcat hnd, ih2]
      _ = total (e :: t) := by
          simp [total_eq_sum, List.sum_cons]

theorem reachable_cat_mem (l : List Expense) (h : Reachable l) :
    ∀ e ∈ l, e.category ∈ categories := by
  induction h with
  | init => intro e he; cases he
  | add l t a c now today hr hc ih =>
    intro e he
    by_cases ht : t = ""
    · simp [addExpense, ht] at he
      exact ih e he
    · simp [addExpense, ht, List.mem_append, List.mem_singleton] at he
      rcases he with he | he
      · exact ih e he
      · subst he; exact hc
  | remove l i hr ih =>
    intro e he
    exact ih e (List.mem_of_mem_filter he)
  | clear l b hr ih =>
    intro e he
    cases b with
    | true => simp [clearAll] at he
    | false => exact ih e (by simpa [clearAll] using he)
  | reload l l2 hr hp ih =>
    have hl : l2 = l := by
      have h2 := parse_stringify l
      rw [h2] at hp
      exact (Option.some.inj hp).symm
    subst hl
    exact ih

/-! Claim theorems. -/

/-- C1: for every input state, `addExpense` is a no-op (the collection is
unchanged and no record is created) whenever the title is empty or the
amount input is absent or non-numeric (the number input holds `none`);
otherwise it appends exactly one new record to the end of the collection
(and clears the title and amount inputs). -/
theorem addExpense_spec (s : AppState) (now : Nat) (today : String) :
    ((s.title = "" ∨ s.amount = none) → addExpense s now today = s) ∧
    (∀ a : Int, s.title ≠ "" → s.amount = some a →
      addExpense s now today =
        ⟨s.expenses ++ [⟨now, s.title, a, s.category, today⟩],
         "", none, s.category⟩) := by
  obtain ⟨es, t, am, c⟩ := s
  constructor
  · rintro (h | h) <;> simp only at h <;> subst h <;> simp [addExpense]
  · intro a ht ha
    simp only at ht ha
    subst ha
    simp [addExpense, ht]

/-- Witness for C1: a valid add appends one record and clears the inputs, an
add with an empty title is a no-op. -/
theorem addExpense_spec_witness :
    addExpense ⟨[], "Coffee", some 150, "Food"⟩ 7 "d1" =
      ⟨[⟨7, "Coffee", 150, "Food", "d1"⟩], "", none, "Food"⟩ ∧
    addExpense ⟨[], "", some 150, "Food"⟩ 7 "d1" = ⟨[], "", some 150, "Food"⟩ :=
  ⟨(addExpense_spec ⟨[], "Coffee", some 150, "Food"⟩ 7 "d1").2 150 (by decide) rfl,
   (addExpense_spec ⟨[], "", some 150, "Food"⟩ 7 "d1").1 (Or.inl rfl)⟩

/-- C2 counterexample: on a present but unparsable blob the initializer does
NOT yield the empty collection; `JSON.parse` has no try/catch around it, so
the parse error propagates.  The claim that an unparsable blob silently
yields `[]` is therefore false. -/
theorem loadInit_unparsable :
    loadInit (some "oops") = Except.error () ∧
    loadInit (some "oops") ≠ Except.ok [] := by
  have h : loadInit (some "oops") = Except.error () := rfl
  exact ⟨h, fun hc => Except.noConfusion (h.symm.trans hc)⟩

/-- C2 amended: at initialization the collection is empty when the blob is
absent or is the (falsy) empty string; a blob that is the serialization of a
collection loads as that collection; a present, non-empty, unparsable blob
makes the initializer throw (modelled `Except.error ()`) instead of yielding
the empty collection. -/
theorem loadInit_spec :
    loadInit none = Except.ok ([] : List Expense) ∧
    loadInit (some "") = Except.ok ([] : List Expense) ∧
    (∀ l : List Expense, loadInit (some (stringify l)) = Except.ok l) ∧
    (∀ s : String, s ≠ "" → parse s = none → loadInit (some s) = Except.error ()) := by
  refine ⟨rfl, rfl, loadInit_stringify, ?_⟩
  intro s hs hp
  simp [loadInit, hs, hp]

/-- Witness for C2 amended: the serialization of the sample collection
reloads as that collection, and a concrete garbage blob errors. -/
theorem loadInit_spec_witness :
    loadInit (some (stringify sampleList)) = Except.ok sampleList ∧
    loadInit (some "x") = Except.error () :=
  ⟨loadInit_spec.2.2.1 sampleList,
   loadInit_spec.2.2.2 "x" (by decide) rfl⟩

/-- C3 counterexample: id uniqueness is NOT an invariant.  `addExpense` uses
`Date.now()` as the id, so an add whose timestamp equals an id already in
the collection (two clicks in the same millisecond) creates a duplicate id.
Concretely: from the reachable single-record collection created at time 5,
a second valid add at time 5 yields two records with id 5. -/
theorem ids_nodup_broken :
    Reachable ((addExpense ⟨[], "Coffee", some 150, "Food"⟩ 5 "d1").expenses) ∧
    (((addExpense ⟨[], "Coffee", some 150, "Food"⟩ 5 "d1").expenses.map
        fun e => e.id).Nodup) ∧
    ¬ (((addExpense ⟨(addExpense ⟨[], "Coffee", some 150, "Food"⟩ 5 "d1").expenses,
          "Tea", some 2, "Food"⟩ 5 "d2").expenses.map fun e => e.id).Nodup) :=
  ⟨Reachable.add [] "Coffee" 150 "Food" 5 "d1" Reachable.init (by decide),
   by decide, by decide⟩

/-- C3 amended: starting from any collection whose ids are distinct,
`removeExpense` and `clearAll` always preserve distinctness, a reload of the
persisted serialization preserves it, and `addExpense` preserves it provided
the add's timestamp differs from every id already in the collection (which
the code does not enforce). -/
theorem ids_nodup_preserved (l : List Expense)
    (h : (l.map fun e => e.id).Nodup) :
    (∀ (s : AppState) (now : Nat) (today : String), s.expenses = l →
        now ∉ l.map (fun e => e.id) →
        (((addExpense s now today).expenses.map fun e => e.id).Nodup)) ∧
    (∀ i : Nat, ((removeExpense l i).map fun e => e.id).Nodup) ∧
    (∀ b : Bool, ((clearAll l b).map fun e => e.id).Nodup) ∧
    (∀ l2 : List Expense, parse (stringify l) = some l2 →
        ((l2.map fun e => e.id).Nodup)) := by
  refine ⟨?_, ?_, ?_, ?_⟩
  · intro s now today hs hnow
    rw [addExpense]
    by_cases ht : s.title = ""
    · simpa [ht, hs] using h
    · cases ha : s.amount with
      | none => simpa [ht, ha, hs] using h
      | some a =>
        simp only [ht, ha, hs, if_false]
        rw [List.map_append, List.nodup_append]
        exact ⟨h, by simp, by simp [List.disjoint_singleton, hnow]⟩
  · intro i
    exact List.Nodup.sublist (List.Sublist.map _ (List.filter_sublist l)) h
  · intro b
    cases b with
    | true => simp [clearAll]
    | false => simpa [clearAll] using h
  · intro l2 hp
    have h2 := parse_stringify l
    rw [h2] at hp
    rw [← Option.some.inj hp]
    exact h

/-- Witness for C3 amended: instantiated on the sample collection. -/
theorem ids_nodup_preserved_witness :
    (∀ (s : AppState) (now : Nat) (today : String), s.expenses = sampleList →
        now ∉ sampleList.map (fun e => e.id) →
        (((addExpense s now today).expenses.map fun e => e.id).Nodup)) ∧
    (∀ i : Nat, ((removeExpense sampleList i).map fun e => e.id).Nodup) ∧
    (∀ b : Bool, ((clearAll sampleList b).map fun e => e.id).Nodup) ∧
    (∀ l2 : List Expense, parse (stringify sampleList) = some l2 →
        ((l2.map fun e => e.id).Nodup)) :=
  ids_nodup_preserved sampleList (by decide)

/-- C4: serializing a collection to the persisted blob and then reloading
that blob (a process restart) yields a collection equal to the original. -/
theorem persist_reload_roundtrip (l : List Expense) (st : Store) :
    loadInit (persistEffect l st).slot = Except.ok l := by
  simpa [persistEffect] using loadInit_stringify l

/-- C5: for every collection the component can hold (reachable through its
operations, whose category values all come from the five-entry selector),
the sum of the five category-breakdown values equals the overall total. -/
theorem pieData_sum_eq_total (l : List Expense) (h : Reachable l) :
    (pieData l).sum = total l :=
  pie_sum_of_mem l (reachable_cat_mem l h)

/-- Witness for C5: the breakdown of a concrete two-record reachable
collection sums to its total. -/
theorem pieData_sum_eq_total_witness :
    (pieData sampleList).sum = total sampleList ∧
    (pieData sampleList).sum = 200 :=
  ⟨pieData_sum_eq_total sampleList
    (Reachable.add [expA] "Bus" 50 "Travel" 2 "d2"
      (Reachable.add [] "Coffee" 150 "Food" 1 "d1" Reachable.init (by decide))
      (by decide)),
   by decide⟩

theorem applyAdd_expenses (st : AppState) (c : AddCall) (h : c.title ≠ "") :
    (applyAdd st c).expenses =
      st.expenses ++ [⟨c.now, c.title, c.amount, c.category, c.today⟩] := by
  simp [applyAdd, addExpense, h]

/-- C6: every valid add call (non-empty title, present numeric amount)
increases the collection length by exactly one, and a sequence of valid add
calls leaves the total at the starting total plus the sum of the added
amounts. -/
theorem runAdds_spec (s : AppState) (calls : List AddCall)
    (h : ∀ c ∈ calls, c.title ≠ "") :
    (∀ (st : AppState) (c : AddCall), c.title ≠ "" →
        (applyAdd st c).expenses.length = st.expenses.length + 1) ∧
    (runAdds s calls).expenses.length = s.expenses.length + calls.length ∧
    total (runAdds s calls).expenses =
      total s.expenses + (calls.map fun c => c.amount).sum := by
  refine ⟨fun st c hc => by simp [applyAdd_expenses st c hc], ?_⟩
  induction calls generalizing s with
  | nil => simp [runAdds]
  | cons c cs ih =>
    have hc : c.title ≠ "" := h c (List.mem_cons_self c cs)
    have hrest := ih (applyAdd s c) fun x hx => h x (List.mem_cons_of_mem c hx)
    have hstep := applyAdd_expenses s c hc
    have hrun : runAdds s (c :: cs) = runAdds (applyAdd s c) cs := rfl
    constructor
    · rw [hrun, hrest.1, hstep]
      simp only [List.length_append, List.length_cons, List.length_nil]
      omega
    · rw [hrun, hrest.2, hstep, total_append]
      simp only [List.map_cons, List.sum_cons, total, List.foldl_cons,
        List.foldl_nil]
      ring

/-- Witness for C6: two valid adds from the empty state give length 2 and
total 200. -/
theorem runAdds_spec_witness :
    (∀ (st : AppState) (c : AddCall), c.title ≠ "" →
        (applyAdd st c).expenses.length = st.expenses.length + 1) ∧
    (runAdds ⟨[], "", none, "Food"⟩
        [⟨"Coffee", 150, "Food", 1, "d1"⟩, ⟨"Bus", 50, "Travel", 2, "d2"⟩]).expenses.length =
      (AppState.mk [] "" none "Food").expenses.length +
        ([⟨"Coffee", 150, "Food", 1, "d1"⟩, ⟨"Bus", 50, "Travel", 2, "d2"⟩] : List AddCall).length ∧
    total (runAdds ⟨[], "", none, "Food"⟩
        [⟨"Coffee", 150, "Food", 1, "d1"⟩, ⟨"Bus", 50, "Travel", 2, "d2"⟩]).expenses =
      total (AppState.mk [] "" none "Food").expenses +
        (([⟨"Coffee", 150, "Food", 1, "d1"⟩, ⟨"Bus", 50, "Travel", 2, "d2"⟩] : List AddCall).map
          fun c => c.amount).sum :=
  runAdds_spec ⟨[], "", none, "Food"⟩
    [⟨"Coffee", 150, "Food", 1, "d1"⟩, ⟨"Bus", 50, "Travel", 2, "d2"⟩]
    (by decide)

/-- C7: on a collection with distinct ids, removing a present id deletes
exactly the record bearing that id (the collection splits around it and the
length drops by one), and removing an absent id leaves the collection
unchanged. -/
theorem removeExpense_spec (l : List Expense) (i : Nat)
    (hnodup : (l.map fun e => e.id).Nodup) :
    ((∃ e ∈ l, e.id = i) →
       ∃ l1 e l2, l = l1 ++ e :: l2 ∧ e.id = i ∧
         removeExpense l i = l1 ++ l2 ∧
         l.length = (removeExpense l i).length + 1) ∧
    ((∀ e ∈ l, e.id ≠ i) → removeExpense l i = l) := by
  constructor
  · rintro ⟨e, he, hei⟩
    obtain ⟨l1, l2, rfl⟩ := List.append_of_mem he
    rw [List.map_append, List.map_cons, List.nodup_append] at hnodup
    have h1 : e.id ∉ l1.map fun x => x.id := fun hmem =>
      hnodup.2.2 hmem (List.mem_cons_self _ _)
    have h2 : e.id ∉ l2.map fun x => x.id :=
      (List.nodup_cons.mp hnodup.2.1).1
    have hrw : removeExpense (l1 ++ e :: l2) i = l1 ++ l2 := by
      rw [removeExpense, List.filter_append, List.filter_cons]
      have hpe : (e.id != i) = false := by simp [hei]
      rw [hpe]
      have hf1 : l1.filter (fun x => x.id != i) = l1 := by
        rw [List.filter_eq_self]
        intro x hx
        simp only [bne_iff_ne, ne_eq]
        intro hxi
        exact h1 (hei ▸ hxi ▸ List.mem_map_of_mem (fun y => y.id) hx)
      have hf2 : l2.filter (fun x => x.id != i) = l2 := by
        rw [List.filter_eq_self]
        intro x hx
        simp only [bne_iff_ne, ne_eq]
        intro hxi
        exact h2 (hei ▸ hxi ▸ List.mem_map_of_mem (fun y => y.id) hx)
      rw [hf1, hf2]
      simp
    refine ⟨l1, e, l2, rfl, hei, hrw, ?_⟩
    rw [hrw]
    simp only [List.length_append, List.length_cons]
    omega
  · intro hall
    rw [removeExpense, List.filter_eq_self]
    intro e he
    simpa using hall e he

/-- Witness for C7: instantiated on the sample collection with the present
id 1 and characterized by the theorem's conclusion. -/
theorem removeExpense_spec_witness :
    ((∃ e ∈ sampleList, e.id = 1) →
       ∃ l1 e l2, sampleList = l1 ++ e :: l2 ∧ e.id = 1 ∧
         removeExpense sampleList 1 = l1 ++ l2 ∧
         sampleList.length = (removeExpense sampleList 1).length + 1) ∧
    ((∀ e ∈ sampleList, e.id ≠ 1) → removeExpense sampleList 1 = sampleList) :=
  removeExpense_spec sampleList 1 (by decide)

/-- C8: clearing with the confirmation accepted empties the collection
regardless of prior size and writes the persisted empty collection; clearing
with the confirmation declined changes neither the collection nor the store
(no persistence write). -/
theorem clearAll_spec (l : List Expense) (st : Store) :
    clearAll l true = [] ∧
    clearAll l false = l ∧
    clearAllStep l st true = ([], persistEffect [] st, true) ∧
    clearAllStep l st false = (l, st, false) ∧
    (persistEffect [] st).slot = some (stringify []) := by
  refine ⟨rfl, rfl, ?_, rfl, rfl⟩
  simp [clearAllStep, clearAll]

/-- C9: the trend series has exactly one point per record, whose label is
that record's date and whose value is that record's amount, in collection
order. -/
theorem lineData_spec (l : List Expense) :
    (lineData l).labels.length = l.length ∧
    (lineData l).dataset.length = l.length ∧
    ∀ i : Nat,
      (lineData l).labels[i]? = (l[i]?).map (fun e => e.date) ∧
      (lineData l).dataset[i]? = (l[i]?).map (fun e => e.amount) := by
  refine ⟨by simp [lineData], by simp [lineData], fun i => ⟨?_, ?_⟩⟩ <;>
    simp [lineData, List.getElem?_map]

/-- C10: removal never edits a surviving record and never reorders: the
result is a sublist of the input (so relative order and record contents are
preserved), every record whose id differs survives, and everything in the
result comes from the input with a different id. -/
theorem removeExpense_frame (l : List Expense) (i : Nat) :
    (removeExpense l i).Sublist l ∧
    (∀ e ∈ l, e.id ≠ i → e ∈ removeExpense l i) ∧
    (∀ e ∈ removeExpense l i, e ∈ l ∧ e.id ≠ i) := by
  refine ⟨List.filter_sublist l, ?_, ?_⟩
  · intro e he hne
    rw [removeExpense, List.mem_filter]
    exact ⟨he, by simpa using hne⟩
  · intro e he
    rw [removeExpense, List.mem_filter] at he
    exact ⟨he.1, by simpa using he.2⟩

/-- Witness for C10: instantiated on the sample collection and id 1. -/
theorem removeExpense_frame_witness :
    (removeExpense sampleList 1).Sublist sampleList ∧
    (∀ e ∈ sampleList, e.id ≠ 1 → e ∈ removeExpense sampleList 1) ∧
    (∀ e ∈ removeExpense sampleList 1, e ∈ sampleList ∧ e.id ≠ 1) :=
  removeExpense_frame sampleList 1

end ExpenseApp
